import Mathlib

/-!
Verification development for the retrieval and ranking engine of the
technical-docs-ai repository.  The TypeScript sources are shallowly
embedded: JavaScript numbers are modelled as rationals, JS Map objects as
association lists with insertion-order semantics, fallible methods as
Except values, and external collaborators (the tiktoken token counter, the
natural TF-IDF library, the vector store) as function parameters.
-/

set_option maxHeartbeats 1000000

attribute [local semireducible] Rat.mul Rat.add Rat.inv Rat.sub

/-- Metadata attached to a search result (src/types/search.ts, SearchMetadata).
Optional TS fields become Option; the index-signature extension is dropped. -/
structure SearchMetadata where
  source : String
  sourceType : String
  title : Option String
  heading : Option String
  chunkIndex : Option Nat
  startLine : Option Nat
  endLine : Option Nat
  tokens : Option Nat
deriving DecidableEq, Repr

/-- A retrieval candidate (src/types/search.ts, SearchResult). -/
structure SearchResult where
  id : String
  content : String
  score : ℚ
  metadata : SearchMetadata
deriving DecidableEq, Repr

/-- A re-ranked candidate (packages/rag-engine/src/types/reranker.ts,
RerankedResult).  The diagnostic rerankerReason string is omitted. -/
structure RerankedResult where
  id : String
  content : String
  score : ℚ
  metadata : SearchMetadata
  originalScore : ℚ
  rerankedScore : ℚ
deriving DecidableEq, Repr

/-- Forgetting the re-ranking fields, keeping the adjusted score. -/
def RerankedResult.toSearchResult (r : RerankedResult) : SearchResult :=
  ⟨r.id, r.content, r.score, r.metadata⟩

/-- The candidate a re-ranked result came from (score restored to the
original retrieval score). -/
def RerankedResult.original (r : RerankedResult) : SearchResult :=
  ⟨r.id, r.content, r.originalScore, r.metadata⟩

/-- Descending comparison by a rational-valued key, the relation the JS
stable sorts with comparator (a, b) => key(b) - key(a) realize. -/
def byScoreGE {α : Type} (f : α → ℚ) (a b : α) : Prop := f b ≤ f a

instance {α : Type} (f : α → ℚ) : DecidableRel (byScoreGE f) :=
  fun a b => inferInstanceAs (Decidable (f b ≤ f a))

instance {α : Type} (f : α → ℚ) : IsTotal α (byScoreGE f) :=
  ⟨fun a b => le_total (f b) (f a)⟩

instance {α : Type} (f : α → ℚ) : IsTrans α (byScoreGE f) :=
  ⟨fun _ _ _ h1 h2 => le_trans h2 h1⟩

/-- JS Map.set on an association list: update the entry in place when the
key is present (insertion order kept), append otherwise. -/
def jsSet {β : Type} : List (String × β) → String → β → List (String × β)
  | [], key, v => [(key, v)]
  | p :: m, key, v => if p.1 = key then (key, v) :: m else p :: jsSet m key v

/-- JS Map.get on an association list: the value of the first entry with
the key. -/
def jsGet {β : Type} : List (String × β) → String → Option β
  | [], _ => none
  | p :: m, key => if p.1 = key then some p.2 else jsGet m key

/-- Keys of an association list in insertion order. -/
def jsKeys {β : Type} (m : List (String × β)) : List String :=
  m.map (fun p => p.1)

/-- Fusion configuration after constructor normalization
(src/search/fusion.ts, FusionConfig made Required). -/
structure FusionConfig where
  k : ℚ
  vectorWeight : ℚ
  keywordWeight : ℚ
deriving DecidableEq, Repr

/-- The SearchFusion constructor: defaults k = 60 and weights 0.5 each,
then divides both weights by their total (src/search/fusion.ts lines 20-32). -/
def SearchFusion.mkConfig (k vectorWeight keywordWeight : Option ℚ) : FusionConfig :=
  let vw := vectorWeight.getD (1/2)
  let kw := keywordWeight.getD (1/2)
  let totalWeight := vw + kw
  ⟨k.getD 60, vw / totalWeight, kw / totalWeight⟩

/-- One map entry of fuseResults: the stored candidate and its running RRF
score. -/
abbrev ScoreEntry : Type := SearchResult × ℚ

/-- The first forEach of fuseResults: each vector result at 0-based rank is
written to the score map with partial score vectorWeight / (k + rank + 1). -/
def processVector (vw k : ℚ) : List SearchResult → Nat → List (String × ScoreEntry) →
    List (String × ScoreEntry)
  | [], _, m => m
  | res :: rest, rank, m =>
      processVector vw k rest (rank + 1)
        (jsSet m res.id (res, vw / (k + (rank : ℚ) + 1)))

/-- The second forEach of fuseResults: a keyword result whose id is already
mapped adds its partial score to the existing entry (keeping the stored
vector candidate), otherwise a fresh entry is appended. -/
def processKeyword (kw k : ℚ) : List SearchResult → Nat → List (String × ScoreEntry) →
    List (String × ScoreEntry)
  | [], _, m => m
  | res :: rest, rank, m =>
      let sc := kw / (k + (rank : ℚ) + 1)
      let m' := match jsGet m res.id with
        | some e => jsSet m res.id (e.1, e.2 + sc)
        | none => jsSet m res.id (res, sc)
      processKeyword kw k rest (rank + 1) m'

/-- The score map built by fuseResults from both input lists. -/
def fuseMap (cfg : FusionConfig) (vectorResults keywordResults : List SearchResult) :
    List (String × ScoreEntry) :=
  processKeyword cfg.keywordWeight cfg.k keywordResults 0
    (processVector cfg.vectorWeight cfg.k vectorResults 0 [])

/-- Reciprocal-rank fusion (src/search/fusion.ts, SearchFusion.fuseResults):
build the score map, sort its values by fused score descending (stable),
take topK, and return each stored candidate with its fused score. -/
def SearchFusion.fuseResults (cfg : FusionConfig)
    (vectorResults keywordResults : List SearchResult) (topK : Nat) :
    List SearchResult :=
  let values := (fuseMap cfg vectorResults keywordResults).map (fun p => p.2)
  let sorted := values.insertionSort (byScoreGE (fun e => e.2))
  (sorted.take topK).map (fun e => { e.1 with score := e.2 })

/-- Ids of a candidate list in order. -/
def resultIds (l : List SearchResult) : List String :=
  l.map (fun r => r.id)

/-- The fused score the specification ascribes to an id: the sum of the
rank-based partial scores of the lists the id occurs in. -/
def fusedScore (cfg : FusionConfig) (vectorResults keywordResults : List SearchResult)
    (id : String) : ℚ :=
  (if id ∈ resultIds vectorResults then
      cfg.vectorWeight / (cfg.k + ((resultIds vectorResults).indexOf id : ℚ) + 1)
    else 0) +
  (if id ∈ resultIds keywordResults then
      cfg.keywordWeight / (cfg.k + ((resultIds keywordResults).indexOf id : ℚ) + 1)
    else 0)

/-- First candidate with a given id. -/
def findById (l : List SearchResult) (id : String) : Option SearchResult :=
  l.find? (fun r => r.id = id)

/-- The map entry the specification predicts for an id: the vector-list
occurrence when the id was vector-retrieved, else the keyword occurrence,
with the summed fused score. -/
def fusedEntry (cfg : FusionConfig) (vectorResults keywordResults : List SearchResult)
    (id : String) : Option ScoreEntry :=
  match findById vectorResults id with
  | some v => some (v, fusedScore cfg vectorResults keywordResults id)
  | none =>
    match findById keywordResults id with
    | some w => some (w, fusedScore cfg vectorResults keywordResults id)
    | none => none

/-- A prompt template with system instruction and user message
(packages/rag-engine/src/types/prompt.ts, PromptTemplate). -/
structure PromptTemplate where
  system : String
  user : String
deriving DecidableEq, Repr

/-- The value returned by buildPrompt (types/prompt.ts, GeneratedPrompt). -/
structure GeneratedPrompt where
  systemPrompt : String
  userPrompt : String
  contextUsed : List SearchResult
  totalTokens : Nat
  truncated : Bool
deriving DecidableEq, Repr

/-- PromptBuilder configuration after constructor defaulting
(prompt-builder.ts: maxContextTokens 3000, maxResultsInContext 10). -/
structure PromptBuilderConfig where
  maxContextTokens : Nat
  maxResultsInContext : Nat
  template : PromptTemplate
deriving DecidableEq, Repr

/-- Rendering of one search result as a context block
(prompt-builder.ts, PromptBuilder.formatResultAsContext).  JS string
truthiness makes empty source/title/heading fields drop out. -/
def formatResultAsContext (r : SearchResult) (includeMetadata : Bool) : String :=
  let metadataLines : List String :=
    (if r.metadata.source ≠ "" then ["Source: " ++ r.metadata.source] else []) ++
    (match r.metadata.title with
      | some t => if t ≠ "" then ["Title: " ++ t] else []
      | none => []) ++
    (match r.metadata.heading with
      | some h => if h ≠ "" then ["Section: " ++ h] else []
      | none => [])
  let parts : List String :=
    (if includeMetadata ∧ metadataLines ≠ [] then
        ["[" ++ String.intercalate " | " metadataLines ++ "]"]
      else []) ++ [r.content]
  String.intercalate "\n" parts

/-- The for loop of PromptBuilder.buildContextString, parameterized over the
external token counter ct.  A block whose tokens would push the running
total over the budget breaks the loop with truncated = true. -/
def buildContextLoop (ct : String → Nat) (maxTok : Nat) (includeMeta : Bool) :
    List SearchResult → Nat → List String × List SearchResult × Bool
  | [], _ => ([], [], false)
  | r :: rest, currentTokens =>
      let contextBlock := formatResultAsContext r includeMeta
      let blockTokens := ct contextBlock
      if maxTok < currentTokens + blockTokens then ([], [], true)
      else
        let next := buildContextLoop ct maxTok includeMeta rest (currentTokens + blockTokens)
        (contextBlock :: next.1, r :: next.2.1, next.2.2)

/-- PromptBuilder.buildContextString (prompt-builder.ts lines 69-104):
accumulate blocks under the budget, then join them with the separator. -/
def buildContextString (ct : String → Nat) (maxTok : Nat)
    (results : List SearchResult) (includeMeta : Bool) :
    String × List SearchResult × Bool :=
  let acc := buildContextLoop ct maxTok includeMeta results 0
  (String.intercalate "\n\n---\n\n" acc.1, acc.2.1, acc.2.2)

/-- JS String.replace with a string pattern replaces only the first
occurrence. -/
def replaceFirst (s pat rep : String) : String :=
  match s.splitOn pat with
  | [] => s
  | [x] => x
  | x :: rest => x ++ rep ++ String.intercalate pat rest

/-- PromptBuilder.buildPrompt (prompt-builder.ts lines 36-64): keep the
first maxResultsInContext results, build the token-budgeted context string,
substitute the placeholders, and count the final prompts. -/
def buildPrompt (ct : String → Nat) (cfg : PromptBuilderConfig) (query : String)
    (searchResults : List SearchResult) (includeMetadata : Option Bool) :
    GeneratedPrompt :=
  let resultsToUse := searchResults.take cfg.maxResultsInContext
  let ctx := buildContextString ct cfg.maxContextTokens resultsToUse
    (includeMetadata.getD true)
  let systemPrompt := cfg.template.system
  let userPrompt :=
    replaceFirst (replaceFirst cfg.template.user "\x7b\x7bQUERY\x7d\x7d" query)
      "\x7b\x7bCONTEXT\x7d\x7d" ctx.1
  ⟨systemPrompt, userPrompt, ctx.2.1, ct systemPrompt + ct userPrompt, ctx.2.2⟩

/-- A constant token counter used in concrete evaluations. -/
def ctOne : String → Nat := fun _ => 1

/-- A token counter that counts characters, used in concrete evaluations. -/
def ctLen : String → Nat := fun s => s.length

/-- A default candidate used only as the out-of-range fallback of list
indexing in theorem statements. -/
def defaultResult : SearchResult :=
  ⟨"", "", 0, ⟨"", "", none, none, none, none, none, none⟩⟩

/-- A plain candidate used by concrete evaluations. -/
def candA : SearchResult :=
  ⟨"a", "alpha", 1/2, ⟨"doc-a", "markdown", none, none, some 0, none, none, none⟩⟩

/-- A second plain candidate used by concrete evaluations. -/
def candB : SearchResult :=
  ⟨"b", "bravo", 2/5, ⟨"doc-b", "markdown", none, none, some 0, none, none, none⟩⟩

/-- A template used by concrete evaluations. -/
def tmplT : PromptTemplate :=
  ⟨"sys", "Q: \x7b\x7bQUERY\x7d\x7d C: \x7b\x7bCONTEXT\x7d\x7d"⟩

/-- One step of the JS split on the whitespace regex: a run of whitespace
closes the current segment; the skipping flag records that the previous
character was part of the same run.  Matches the semantics of
text.split with a one-or-more-whitespace regex, including the empty leading
and trailing segments. -/
def splitWsGo : List Char → Bool → String → List String
  | [], _, cur => [cur]
  | c :: rest, skipping, cur =>
      if c.isWhitespace then
        if skipping then splitWsGo rest true cur
        else cur :: splitWsGo rest true ""
      else splitWsGo rest false (cur.push c)

/-- JS text.split on a one-or-more-whitespace regex. -/
def jsSplitWs (s : String) : List String :=
  splitWsGo s.data false ""

/-- JS toLowerCase, modelled characterwise (ASCII case folding). -/
def jsToLower (s : String) : String :=
  ⟨s.data.map Char.toLower⟩

/-- Jaccard similarity over lowercase whitespace-tokenized word sets, as
computed by calculateTextSimilarity / calculateSimilarity: set sizes are
modelled by deduplicated list lengths. -/
def jaccard (text1 text2 : String) : ℚ :=
  let words1 := jsSplitWs (jsToLower text1)
  let words2 := jsSplitWs (jsToLower text2)
  let interSize := (words1.dedup.filter (fun w => decide (w ∈ words2))).length
  let unionSize := (words1 ++ words2).dedup.length
  (interSize : ℚ) / (unionSize : ℚ)

/-- DiversityReranker.calculateSimilarity (part_011 lines 222-239): same
source and same chunkIndex means duplicate (similarity 1), otherwise
Jaccard similarity of the contents. -/
def calculateSimilarity (result1 result2 : SearchResult) : ℚ :=
  if result1.metadata.source = result2.metadata.source ∧
      result1.metadata.chunkIndex = result2.metadata.chunkIndex then 1
  else jaccard result1.content result2.content

/-- Diversity reranker configuration after constructor defaulting
(similarityThreshold 0.7, sourceWeighting true). -/
structure DiversityConfig where
  similarityThreshold : ℚ
  sourceWeighting : Bool
deriving DecidableEq, Repr

/-- The default diversity configuration. -/
def diversityDefault : DiversityConfig := ⟨7/10, true⟩

/-- DiversityReranker.isSimilarToSelected: some already-admitted result has
similarity strictly above the threshold. -/
def isSimilarToSelected (thr : ℚ) (result : SearchResult)
    (selected : List RerankedResult) : Bool :=
  selected.any (fun s => decide (thr < calculateSimilarity result s.toSearchResult))

/-- DiversityReranker.calculateSourceBonus: 0.1 for a source not seen yet
when source weighting is on. -/
def calculateSourceBonus (sourceWeighting : Bool) (result : SearchResult)
    (seenSources : List String) : ℚ :=
  if sourceWeighting then
    if result.metadata.source ∈ seenSources then 0 else 1/10
  else 0

/-- JS Set.add on a membership list. -/
def jsAdd (seen : List String) (s : String) : List String :=
  if s ∈ seen then seen else seen ++ [s]

/-- The JS truthiness test of the loop guard: break only when topK is a
nonzero number and enough results were admitted. -/
def diversityBreak (topK : Option Nat) (selectedLen : Nat) : Bool :=
  match topK with
  | some k => decide (k ≠ 0) && decide (k ≤ selectedLen)
  | none => false

/-- The for loop of DiversityReranker.rerank (part_011 lines 167-202). -/
def diversityLoop (cfg : DiversityConfig) (topK : Option Nat) :
    List SearchResult → List RerankedResult → List String → List RerankedResult
  | [], selected, _ => selected
  | result :: rest, selected, seenSources =>
      if diversityBreak topK selected.length then selected
      else if isSimilarToSelected cfg.similarityThreshold result selected then
        diversityLoop cfg topK rest selected seenSources
      else
        let sourceBonus := calculateSourceBonus cfg.sourceWeighting result seenSources
        diversityLoop cfg topK rest
          (selected ++ [⟨result.id, result.content, result.score + sourceBonus,
            result.metadata, result.score, result.score + sourceBonus⟩])
          (jsAdd seenSources result.metadata.source)

/-- DiversityReranker.rerank: walk the incoming order, admitting
sufficiently dissimilar results. -/
def DiversityReranker.rerank (cfg : DiversityConfig) (results : List SearchResult)
    (topK : Option Nat) : List RerankedResult :=
  diversityLoop cfg topK results [] []

/-- Sources of a re-ranked list in order. -/
def sourcesOf (l : List RerankedResult) : List String :=
  l.map (fun x => x.metadata.source)

/-- A default re-ranked result used only as the out-of-range fallback of
list indexing in theorem statements. -/
def defaultReranked : RerankedResult :=
  ⟨"", "", 0, ⟨"", "", none, none, none, none, none, none⟩, 0, 0⟩

/-- A candidate whose content has Jaccard similarity exactly 7/10 to
simRes1 (seven shared words, ten distinct words in the union). -/
def simRes2 : SearchResult :=
  ⟨"2", "c1 c2 c3 c4 c5 c6 c7 b1 b2", 1/2,
    ⟨"s2", "markdown", none, none, some 0, none, none, none⟩⟩

/-- The partner candidate of simRes2. -/
def simRes1 : SearchResult :=
  ⟨"1", "c1 c2 c3 c4 c5 c6 c7 a1", 1/2,
    ⟨"s1", "markdown", none, none, some 0, none, none, none⟩⟩

/-- First candidate of the order-preservation example: new source, so it
receives the bonus. -/
def divRes1 : SearchResult :=
  ⟨"d1", "alpha", 1/2, ⟨"a", "markdown", none, none, some 0, none, none, none⟩⟩

/-- Second candidate of the order-preservation example: repeated source, no
bonus. -/
def divRes2 : SearchResult :=
  ⟨"d2", "bravo", 9/20, ⟨"a", "markdown", none, none, some 1, none, none, none⟩⟩

/-- Third candidate of the order-preservation example: new source again, so
its bonus lifts it above the second. -/
def divRes3 : SearchResult :=
  ⟨"d3", "charlie", 11/25, ⟨"b", "markdown", none, none, some 0, none, none, none⟩⟩

/-- Conversion used by both rerankers: spread the candidate, set
originalScore to the old score and both score and rerankedScore to the new
one. -/
def toRerankedResult (r : SearchResult) (rerankedScore : ℚ) : RerankedResult :=
  ⟨r.id, r.content, rerankedScore, r.metadata, r.score, rerankedScore⟩

/-- MMRReranker.calculateMaxSimilarity: the maximum Jaccard similarity of a
candidate to the already-selected results, 0 when none are selected. -/
def calculateMaxSimilarity (r : SearchResult) (selected : List RerankedResult) : ℚ :=
  selected.foldl (fun m s => max m (jaccard r.content s.content)) 0

/-- The MMR objective for one remaining candidate. -/
def mmrScore (lam : ℚ) (selected : List RerankedResult) (r : SearchResult) : ℚ :=
  lam * r.score - (1 - lam) * calculateMaxSimilarity r selected

/-- The argmax scan of the MMR loop: starting from the first score (which
always beats the initial negative infinity), keep the first index whose
score strictly exceeds the best so far. -/
def firstMaxFrom (best : ℚ) (bi i : Nat) : List ℚ → Nat × ℚ
  | [] => (bi, best)
  | s :: rest =>
      if best < s then firstMaxFrom s i (i + 1) rest
      else firstMaxFrom best bi (i + 1) rest

/-- The while loop of MMRReranker.rerank (part_011 lines 41-71), fueled by
the length of the remaining pool: every iteration removes exactly one
candidate, so the fuel never runs out before the JS loop would stop. -/
def mmrLoop (lam : ℚ) (k : Nat) : Nat → List RerankedResult → List SearchResult →
    List RerankedResult
  | 0, selected, _ => selected
  | _ + 1, selected, [] => selected
  | fuel + 1, selected, r0 :: rest =>
      if selected.length < k then
        let jm := firstMaxFrom (mmrScore lam selected r0) 0 1
          (rest.map (mmrScore lam selected))
        let sel := (r0 :: rest).getD jm.1 r0
        mmrLoop lam k fuel (selected ++ [toRerankedResult sel jm.2])
          ((r0 :: rest).eraseIdx jm.1)
      else selected

/-- MMRReranker.rerank (part_011 lines 25-74): the first input candidate is
always selected first, then the remaining pool is consumed greedily by
highest MMR objective. -/
def MMRReranker.rerank (lam : ℚ) (results : List SearchResult)
    (topK : Option Nat) : List RerankedResult :=
  match results with
  | [] => []
  | first :: rest =>
      let k := topK.getD results.length
      mmrLoop lam k rest.length [toRerankedResult first first.score] rest

/-- Sorting a candidate list by score descending, stable (ties keep input
order): the reference ordering of claim C6. -/
def sortByScoreDesc (results : List SearchResult) : List SearchResult :=
  results.insertionSort (byScoreGE (fun r => r.score))

/-- A two-element list that is not sorted by score, for the MMR
counterexample. -/
def mmrUnsorted : List SearchResult :=
  [⟨"x", "xray", 1, ⟨"sx", "markdown", none, none, some 0, none, none, none⟩⟩,
   ⟨"y", "yankee", 5, ⟨"sy", "markdown", none, none, some 0, none, none, none⟩⟩]

/-- A two-element list sorted by score descending, for the MMR witness. -/
def mmrSorted : List SearchResult :=
  [⟨"p", "papa", 2, ⟨"sp", "markdown", none, none, some 0, none, none, none⟩⟩,
   ⟨"q", "quebec", 1, ⟨"sq", "markdown", none, none, some 0, none, none, none⟩⟩]

/-- Metadata of an indexed chunk (src/types/document.ts, ChunkMetadata).
The unused url, author, date and tag fields of DocumentMetadata are
omitted; chunkIndex and tokens are required there. -/
structure ChunkMetadata where
  source : String
  sourceType : String
  title : Option String
  heading : Option String
  chunkIndex : Nat
  startLine : Option Nat
  endLine : Option Nat
  tokens : Nat
  parentDocumentId : String
deriving DecidableEq, Repr

/-- An indexed document chunk (src/types/document.ts, DocumentChunk); the
optional embedding vector is not used by keyword search. -/
structure DocumentChunk where
  id : String
  content : String
  metadata : ChunkMetadata
deriving DecidableEq, Repr

/-- A default chunk used only as the out-of-range fallback of list indexing. -/
def defaultChunk : DocumentChunk :=
  ⟨"", "", ⟨"", "", none, none, 0, none, none, 0, ""⟩⟩

/-- JS String.prototype.repeat. -/
def strRepeat (s : String) (n : Nat) : String :=
  String.join (List.replicate n s)

/-- KeywordSearch.createSearchableText (src/search/keyword-search.ts lines
165-179): content, the title three times and the heading twice, joined by a
space and lowercased; empty title or heading is falsy and dropped. -/
def createSearchableText (doc : DocumentChunk) : String :=
  let parts : List String :=
    [doc.content] ++
    (match doc.metadata.title with
      | some t => if t ≠ "" then [strRepeat t 3] else []
      | none => []) ++
    (match doc.metadata.heading with
      | some h => if h ≠ "" then [strRepeat h 2] else []
      | none => [])
  jsToLower (String.intercalate " " parts)

/-- Modelled from the spec: the TF-IDF relevance function of the external
natural library used by KeywordSearch (spec 4.1, a
term-frequency/inverse-document-frequency score per candidate); the score
of a document against a query is the sum, over the query terms, of the
term's frequency in the document text times its inverse document
frequency, the latter kept abstract as the parameter idf. -/
def tfidfScore (idf : String → ℚ) (queryTerms docTerms : List String) : ℚ :=
  (queryTerms.map (fun t => (docTerms.count t : ℚ) * idf t)).sum

/-- KeywordSearch.search (src/search/vector-search.ts part, lines 121-160):
empty index short-circuits to an empty list; otherwise each document is
scored in index order, only strictly positive scores are kept, they are
sorted descending, cut to topK and converted to SearchResults with the
normalized score.  The tokenizer and the score normalizer (a logistic
squash over real exponentials) are external and stay parameters. -/
def KeywordSearch.search (idf : String → ℚ) (tok : String → List String)
    (norm : ℚ → ℚ) (documents : List DocumentChunk) (query : String)
    (topK : Nat) : List SearchResult :=
  if documents.length = 0 then []
  else
    let scores := (documents.enum.map (fun p =>
        (p.1, tfidfScore idf (tok query) (tok (createSearchableText p.2))))).filter
      (fun p => decide (0 < p.2))
    let sorted := scores.insertionSort (byScoreGE (fun p => p.2))
    (sorted.take topK).map (fun p =>
      let doc := documents.getD p.1 defaultChunk
      (⟨doc.id, doc.content, norm p.2,
        ⟨doc.metadata.source, doc.metadata.sourceType, doc.metadata.title,
         doc.metadata.heading, some doc.metadata.chunkIndex,
         doc.metadata.startLine, doc.metadata.endLine,
         some doc.metadata.tokens⟩⟩ : SearchResult))

/-- Search strategies of the facade (src/types/search.ts, SearchStrategy). -/
inductive SearchStrategy where
  | vector
  | keyword
  | hybrid
deriving DecidableEq, Repr

/-- The message of the error thrown when the keyword index is not ready. -/
def notIndexedMsg : String :=
  "Keyword index not ready. Call indexDocuments() first."

/-- HybridSearch.keywordOnlySearch (part_005 lines 119-126): throws when
the keyword index has not been built. -/
def keywordOnlySearch (isKeywordIndexReady : Bool) (idf : String → ℚ)
    (tok : String → List String) (norm : ℚ → ℚ)
    (documents : List DocumentChunk) (query : String) (topK : Nat) :
    Except String (List SearchResult) :=
  if !isKeywordIndexReady then Except.error notIndexedMsg
  else Except.ok (KeywordSearch.search idf tok norm documents query topK)

/-- HybridSearch.hybridSearchImpl (part_005 lines 131-164): throws when the
keyword index has not been built, otherwise fuses the two retrievals, each
asked for twice topK.  The external vector search is a parameter from topK
to its result list. -/
def hybridSearchImpl (isKeywordIndexReady : Bool) (cfg : FusionConfig)
    (idf : String → ℚ) (tok : String → List String) (norm : ℚ → ℚ)
    (documents : List DocumentChunk) (vectorSearch : Nat → List SearchResult)
    (query : String) (topK : Nat) : Except String (List SearchResult) :=
  if !isKeywordIndexReady then Except.error notIndexedMsg
  else Except.ok (SearchFusion.fuseResults cfg (vectorSearch (topK * 2))
    (KeywordSearch.search idf tok norm documents query (topK * 2)) topK)

/-- The optional minimum-score filter of HybridSearch.search. -/
def applyMinScore (minScore : Option ℚ) (results : List SearchResult) :
    List SearchResult :=
  match minScore with
  | some m => results.filter (fun r => decide (m ≤ r.score))
  | none => results

/-- HybridSearch.search (part_005 lines 49-103): dispatch on the strategy,
then apply the optional minimum-score filter.  Timing metrics are dropped. -/
def HybridSearch.search (isKeywordIndexReady : Bool) (cfg : FusionConfig)
    (idf : String → ℚ) (tok : String → List String) (norm : ℚ → ℚ)
    (documents : List DocumentChunk) (vectorSearch : Nat → List SearchResult)
    (query : String) (strategy : SearchStrategy) (topK : Nat)
    (minScore : Option ℚ) : Except String (List SearchResult) :=
  match strategy with
  | SearchStrategy.vector => Except.ok (applyMinScore minScore (vectorSearch topK))
  | SearchStrategy.keyword =>
      (keywordOnlySearch isKeywordIndexReady idf tok norm documents query
        topK).map (applyMinScore minScore)
  | SearchStrategy.hybrid =>
      (hybridSearchImpl isKeywordIndexReady cfg idf tok norm documents
        vectorSearch query topK).map (applyMinScore minScore)

/-- A concrete tokenizer (lowercased whitespace words) used in concrete
evaluations. -/
def tokLower : String → List String := fun s => jsSplitWs (jsToLower s)

/-- An indexed chunk used by concrete evaluations. -/
def chunkA : DocumentChunk :=
  ⟨"ca", "alpha", ⟨"doc-a", "markdown", none, none, 0, none, none, 1, "pa"⟩⟩

/-- A second indexed chunk used by concrete evaluations. -/
def chunkB : DocumentChunk :=
  ⟨"cb", "bravo", ⟨"doc-b", "markdown", none, none, 0, none, none, 1, "pb"⟩⟩

/-- A fusion configuration with weights 0.6 and 0.4, for concrete
evaluations (scenario A of the specification). -/
def cfgW : FusionConfig :=
  SearchFusion.mkConfig none (some (3/5)) (some (2/5))

/-- Vector list of the concrete fusion evaluation: ids a, b, c. -/
def fuseVecW : List SearchResult :=
  [⟨"a", "alpha", 9/10, ⟨"da", "markdown", none, none, some 0, none, none, none⟩⟩,
   ⟨"b", "bravo vector copy", 8/10, ⟨"db", "markdown", none, none, some 1, none, none, none⟩⟩,
   ⟨"c", "charlie", 7/10, ⟨"dc", "markdown", none, none, some 2, none, none, none⟩⟩]

/-- Keyword list of the concrete fusion evaluation: ids b (again, with a
different stored copy) and d. -/
def fuseKwW : List SearchResult :=
  [⟨"b", "bravo keyword copy", 6/10, ⟨"db", "markdown", none, none, some 1, none, none, none⟩⟩,
   ⟨"d", "delta", 5/10, ⟨"dd", "markdown", none, none, some 0, none, none, none⟩⟩]

/-- Effective weights of the fusion constructor sum to one whenever the
configured weights are nonnegative with positive total (claim C7). -/
theorem fusion_weights_normalized (k : Option ℚ) (vw kw : ℚ)
    (_hvw : 0 ≤ vw) (_hkw : 0 ≤ kw) (hpos : 0 < vw + kw) :
    (SearchFusion.mkConfig k (some vw) (some kw)).vectorWeight +
      (SearchFusion.mkConfig k (some vw) (some kw)).keywordWeight = 1 := by
  simp only [SearchFusion.mkConfig, Option.getD_some]
  rw [div_add_div_same, div_self (ne_of_gt hpos)]

/-- Witness: the normalization theorem applied to the weight pair (3, 1),
which does not sum to 1. -/
theorem fusion_weights_normalized_witness :
    (0 : ℚ) ≤ 3 ∧ (0 : ℚ) ≤ 1 ∧ (0 : ℚ) < 3 + 1 ∧
      (SearchFusion.mkConfig none (some 3) (some 1)).vectorWeight +
        (SearchFusion.mkConfig none (some 3) (some 1)).keywordWeight = 1 :=
  ⟨by norm_num, by norm_num, by norm_num,
    fusion_weights_normalized none 3 1 (by norm_num) (by norm_num) (by norm_num)⟩

/-- Invariants of the context-accumulation loop: the parts are the rendered
blocks of the used results, the used results are a prefix of the input, the
running total stays within the budget, the truncated flag is set exactly
when some input result was dropped, and the first dropped block would have
overflowed the budget. -/
theorem buildContextLoop_spec (ct : String → Nat) (maxTok : Nat) (meta : Bool) :
    ∀ (l : List SearchResult) (cur : Nat),
      (buildContextLoop ct maxTok meta l cur).1 =
        (buildContextLoop ct maxTok meta l cur).2.1.map
          (fun r => formatResultAsContext r meta) ∧
      (buildContextLoop ct maxTok meta l cur).2.1 =
        l.take (buildContextLoop ct maxTok meta l cur).2.1.length ∧
      (cur ≤ maxTok →
        cur + ((buildContextLoop ct maxTok meta l cur).2.1.map
          (fun r => ct (formatResultAsContext r meta))).sum ≤ maxTok) ∧
      ((buildContextLoop ct maxTok meta l cur).2.2 = true ↔
        (buildContextLoop ct maxTok meta l cur).2.1.length < l.length) ∧
      ((buildContextLoop ct maxTok meta l cur).2.1.length < l.length →
        maxTok < cur + ((buildContextLoop ct maxTok meta l cur).2.1.map
            (fun r => ct (formatResultAsContext r meta))).sum +
          ct (formatResultAsContext
            (l.getD (buildContextLoop ct maxTok meta l cur).2.1.length defaultResult)
            meta))
  | [], cur => by
      refine ⟨rfl, rfl, ?_, ?_, ?_⟩
      · intro h; simpa using h
      · simp [buildContextLoop]
      · intro h; exact absurd h (by simp)
  | r :: rest, cur => by
      by_cases hover : maxTok < cur + ct (formatResultAsContext r meta)
      · refine ⟨?_, ?_, ?_, ?_, ?_⟩ <;>
          simp only [buildContextLoop, if_pos hover]
        · rfl
        · rfl
        · intro h; simpa using h
        · simp
        · intro _
          simpa using hover
      · obtain ⟨ih1, ih2, ih3, ih4, ih5⟩ :=
          buildContextLoop_spec ct maxTok meta rest
            (cur + ct (formatResultAsContext r meta))
        refine ⟨?_, ?_, ?_, ?_, ?_⟩ <;>
          simp only [buildContextLoop, if_neg hover]
        · simpa using ih1
        · simpa using ih2
        · intro _
          have hfit : cur + ct (formatResultAsContext r meta) ≤ maxTok :=
            Nat.le_of_not_lt hover
          have := ih3 hfit
          simp only [List.map_cons, List.sum_cons]
          omega
        · simpa [Nat.succ_lt_succ_iff] using ih4
        · intro h
          have h' : (buildContextLoop ct maxTok meta rest
              (cur + ct (formatResultAsContext r meta))).2.1.length < rest.length := by
            simpa [Nat.succ_lt_succ_iff] using h
          have := ih5 h'
          simp only [List.map_cons, List.sum_cons, List.length_cons,
            List.getD_cons_succ]
          omega

/-- Claim C1 (amended): the truncated flag of buildPrompt is true exactly
when the token budget dropped one of the first maxResultsInContext
candidates; candidates beyond the configured maximum count do not set the
flag. -/
theorem prompt_truncated_iff_budget_dropped (ct : String → Nat)
    (cfg : PromptBuilderConfig) (query : String) (results : List SearchResult)
    (meta : Option Bool) :
    (buildPrompt ct cfg query results meta).truncated = true ↔
      (buildPrompt ct cfg query results meta).contextUsed.length <
        (results.take cfg.maxResultsInContext).length := by
  obtain ⟨-, -, -, h4, -⟩ :=
    buildContextLoop_spec ct cfg.maxContextTokens (meta.getD true)
      (results.take cfg.maxResultsInContext) 0
  simpa [buildPrompt, buildContextString] using h4

/-- Counterexample to claim C1 as stated: with eleven offered candidates of
one token each, the default maximum count of ten drops one candidate, yet
the flag stays false. -/
theorem prompt_truncated_misses_count_dropped :
    ¬ (((buildPrompt ctOne ⟨3000, 10, tmplT⟩ "q" (List.replicate 11 candA)
            none).truncated = true) ↔
        (buildPrompt ctOne ⟨3000, 10, tmplT⟩ "q" (List.replicate 11 candA)
            none).contextUsed.length
          < (List.replicate 11 candA).length) := by
  decide

/-- Claim C2 (amended): the sum of the per-block token counts of the
included blocks stays within the budget, the used candidates are a prefix
of the input with no partial blocks, the rendered string is exactly the
included blocks joined by the separator (whose tokens are not counted
against the budget), the loop stops at the first block whose addition would
overflow, and the truncated flag is set exactly in that case. -/
theorem contextString_budget_props (ct : String → Nat) (maxTok : Nat)
    (results : List SearchResult) (meta : Bool) :
    ((buildContextString ct maxTok results meta).2.1.map
        (fun r => ct (formatResultAsContext r meta))).sum ≤ maxTok ∧
    (buildContextString ct maxTok results meta).2.1 =
      results.take (buildContextString ct maxTok results meta).2.1.length ∧
    (buildContextString ct maxTok results meta).1 =
      String.intercalate "\n\n---\n\n"
        ((buildContextString ct maxTok results meta).2.1.map
          (fun r => formatResultAsContext r meta)) ∧
    ((buildContextString ct maxTok results meta).2.2 = true ↔
      (buildContextString ct maxTok results meta).2.1.length < results.length) ∧
    ((buildContextString ct maxTok results meta).2.1.length < results.length →
      maxTok <
        ((buildContextString ct maxTok results meta).2.1.map
            (fun r => ct (formatResultAsContext r meta))).sum +
          ct (formatResultAsContext
            (results.getD (buildContextString ct maxTok results meta).2.1.length
              defaultResult)
            meta)) := by
  obtain ⟨h1, h2, h3, h4, h5⟩ := buildContextLoop_spec ct maxTok meta results 0
  refine ⟨?_, ?_, ?_, ?_, ?_⟩
  · simpa [buildContextString] using h3 (Nat.zero_le _)
  · simpa [buildContextString] using h2
  · simpa [buildContextString] using congrArg (String.intercalate "\n\n---\n\n") h1
  · simpa [buildContextString] using h4
  · intro h
    have h' : (buildContextLoop ct maxTok meta results 0).2.1.length < results.length := by
      simpa [buildContextString] using h
    have := h5 h'
    simpa [buildContextString] using this

/-- Counterexample to claim C2 as stated: with a character-counting
tokenizer, two four-token blocks exactly fill a budget of eight, but the
rendered context string with its separator counts seventeen tokens,
exceeding the budget. -/
theorem contextString_tokens_can_exceed_budget :
    ¬ (ctLen (buildContextString ctLen 8
        [⟨"a", "aaaa", 1/2, ⟨"", "markdown", none, none, none, none, none, none⟩⟩,
         ⟨"b", "bbbb", 2/5, ⟨"", "markdown", none, none, none, none, none, none⟩⟩]
        true).1 ≤ 8) := by
  decide

/-- Similarity ignores the score field, so the stored re-ranked copy of an
admitted candidate compares like the candidate itself. -/
theorem calculateSimilarity_score_irrel (a : SearchResult) (x : ℚ)
    (z : SearchResult) :
    calculateSimilarity ⟨a.id, a.content, x, a.metadata⟩ z =
      calculateSimilarity a z := rfl

/-- The admitted list stays pairwise dissimilar (at or below the threshold)
throughout the diversity loop. -/
theorem diversityLoop_pairwise (cfg : DiversityConfig) (topK : Option Nat) :
    ∀ (l : List SearchResult) (selected : List RerankedResult)
      (seen : List String),
      selected.Pairwise (fun a b =>
        calculateSimilarity b.toSearchResult a.toSearchResult ≤
          cfg.similarityThreshold) →
      (diversityLoop cfg topK l selected seen).Pairwise (fun a b =>
        calculateSimilarity b.toSearchResult a.toSearchResult ≤
          cfg.similarityThreshold)
  | [], selected, seen, hsel => hsel
  | result :: rest, selected, seen, hsel => by
      simp only [diversityLoop]
      by_cases hbrk : diversityBreak topK selected.length = true
      · simpa [hbrk] using hsel
      · simp only [Bool.not_eq_true] at hbrk
        rw [hbrk]
        simp only [Bool.false_eq_true, if_false]
        by_cases hsim : isSimilarToSelected cfg.similarityThreshold result selected = true
        · rw [hsim]
          simp only [if_true]
          exact diversityLoop_pairwise cfg topK rest selected seen hsel
        · simp only [Bool.not_eq_true] at hsim
          rw [hsim]
          simp only [Bool.false_eq_true, if_false]
          refine diversityLoop_pairwise cfg topK rest _ _ ?_
          rw [List.pairwise_append]
          refine ⟨hsel, List.pairwise_singleton _ _, ?_⟩
          intro a ha b hb
          simp only [List.mem_singleton] at hb
          subst hb
          simp only [isSimilarToSelected, List.any_eq_false,
            decide_eq_true_eq] at hsim
          have hna := hsim a ha
          have heq : calculateSimilarity
              (RerankedResult.toSearchResult
                ⟨result.id, result.content, result.score +
                    calculateSourceBonus cfg.sourceWeighting result seen,
                  result.metadata, result.score, result.score +
                    calculateSourceBonus cfg.sourceWeighting result seen⟩)
              a.toSearchResult =
              calculateSimilarity result a.toSearchResult := rfl
          rw [heq]
          exact le_of_not_lt hna

/-- Membership in the JS-set model. -/
theorem jsAdd_mem (seen : List String) (src s : String) :
    s ∈ jsAdd seen src ↔ s ∈ seen ∨ s = src := by
  by_cases h : src ∈ seen
  · simp only [jsAdd, if_pos h]
    constructor
    · exact Or.inl
    · rintro (hs | rfl)
      · exact hs
      · exact h
  · simp [jsAdd, if_neg h]

/-- Every admitted candidate receives the source bonus exactly when its
source is new among the earlier admissions. -/
theorem diversityLoop_scores (cfg : DiversityConfig) (topK : Option Nat)
    (hsw : cfg.sourceWeighting = true) :
    ∀ (l : List SearchResult) (selected : List RerankedResult)
      (seen : List String),
      (∀ s, s ∈ seen ↔ s ∈ sourcesOf selected) →
      (∀ j, j < selected.length →
        (selected.getD j defaultReranked).rerankedScore =
          (selected.getD j defaultReranked).originalScore +
            (if (selected.getD j defaultReranked).metadata.source ∈
                sourcesOf (selected.take j) then 0 else 1/10)) →
      ∀ j, j < (diversityLoop cfg topK l selected seen).length →
        ((diversityLoop cfg topK l selected seen).getD j defaultReranked).rerankedScore =
          ((diversityLoop cfg topK l selected seen).getD j defaultReranked).originalScore +
            (if ((diversityLoop cfg topK l selected seen).getD j
                  defaultReranked).metadata.source ∈
                sourcesOf ((diversityLoop cfg topK l selected seen).take j)
              then 0 else 1/10)
  | [], selected, seen, _, hscore => hscore
  | result :: rest, selected, seen, hseen, hscore => by
      simp only [diversityLoop]
      by_cases hbrk : diversityBreak topK selected.length = true
      · simpa [hbrk] using hscore
      · simp only [Bool.not_eq_true] at hbrk
        rw [hbrk]
        simp only [Bool.false_eq_true, if_false]
        by_cases hsim : isSimilarToSelected cfg.similarityThreshold result selected = true
        · rw [hsim]
          simp only [if_true]
          exact diversityLoop_scores cfg topK hsw rest selected seen hseen hscore
        · simp only [Bool.not_eq_true] at hsim
          rw [hsim]
          simp only [Bool.false_eq_true, if_false]
          refine diversityLoop_scores cfg topK hsw rest _ _ ?_ ?_
          · intro s
            rw [jsAdd_mem, hseen s]
            simp [sourcesOf]
          · intro j hj
            rcases Nat.lt_succ_iff_lt_or_eq.mp (by simpa using hj) with hlt | heq
            · rw [List.getD_append _ _ _ _ hlt,
                List.take_append_of_le_length (Nat.le_of_lt hlt)]
              exact hscore j hlt
            · subst heq
              rw [List.getD_append_right _ _ _ _ (Nat.le_refl _),
                Nat.sub_self, List.take_left]
              simp only [List.getD_cons_zero]
              have hb : calculateSourceBonus cfg.sourceWeighting result seen =
                  (if result.metadata.source ∈ sourcesOf selected then 0 else 1/10) := by
                rw [calculateSourceBonus, hsw]
                simp only [if_true]
                by_cases hmem : result.metadata.source ∈ sourcesOf selected
                · rw [if_pos ((hseen _).mpr hmem), if_pos hmem]
                · rw [if_neg (fun hc => hmem ((hseen _).mp hc)), if_neg hmem]
              simp [hb]

/-- The diversity loop never admits more than a positive requested count. -/
theorem diversityLoop_length_le (cfg : DiversityConfig) (k : Nat) (hk : 1 ≤ k) :
    ∀ (l : List SearchResult) (selected : List RerankedResult)
      (seen : List String), selected.length ≤ k →
      (diversityLoop cfg (some k) l selected seen).length ≤ k
  | [], _, _, hsel => hsel
  | result :: rest, selected, seen, hsel => by
      simp only [diversityLoop]
      by_cases hbrk : diversityBreak (some k) selected.length = true
      · simpa [hbrk] using hsel
      · have hlen : selected.length < k := by
          by_contra hge
          have : diversityBreak (some k) selected.length = true := by
            simp only [diversityBreak, Bool.and_eq_true, decide_eq_true_eq]
            exact ⟨Nat.one_le_iff_ne_zero.mp hk, Nat.le_of_not_lt hge⟩
          exact hbrk this
        simp only [Bool.not_eq_true] at hbrk
        rw [hbrk]
        simp only [Bool.false_eq_true, if_false]
        by_cases hsim : isSimilarToSelected cfg.similarityThreshold result selected = true
        · rw [hsim]
          simp only [if_true]
          exact diversityLoop_length_le cfg k hk rest selected seen hsel
        · simp only [Bool.not_eq_true] at hsim
          rw [hsim]
          simp only [Bool.false_eq_true, if_false]
          exact diversityLoop_length_le cfg k hk rest _ _ (by simpa using hlen)

/-- The diversity loop output, restored to original candidates, is a
subsequence of the admitted prefix followed by the pending input. -/
theorem diversityLoop_sublist (cfg : DiversityConfig) (topK : Option Nat) :
    ∀ (l : List SearchResult) (selected : List RerankedResult)
      (seen : List String),
      ((diversityLoop cfg topK l selected seen).map RerankedResult.original).Sublist
        ((selected.map RerankedResult.original) ++ l)
  | [], selected, _ => by simp [diversityLoop]
  | result :: rest, selected, seen => by
      simp only [diversityLoop]
      by_cases hbrk : diversityBreak topK selected.length = true
      · rw [hbrk]
        simp only [if_true]
        exact List.sublist_append_left _ _
      · simp only [Bool.not_eq_true] at hbrk
        rw [hbrk]
        simp only [Bool.false_eq_true, if_false]
        by_cases hsim : isSimilarToSelected cfg.similarityThreshold result selected = true
        · rw [hsim]
          simp only [if_true]
          exact (diversityLoop_sublist cfg topK rest selected seen).trans
            ((List.sublist_cons_self result rest).append_left _)
        · simp only [Bool.not_eq_true] at hsim
          rw [hsim]
          simp only [Bool.false_eq_true, if_false]
          have := diversityLoop_sublist cfg topK rest
            (selected ++ [⟨result.id, result.content,
              result.score + calculateSourceBonus cfg.sourceWeighting result seen,
              result.metadata, result.score,
              result.score + calculateSourceBonus cfg.sourceWeighting result seen⟩])
            (jsAdd seen result.metadata.source)
          simpa [RerankedResult.original] using this

/-- Claim C5 (amended): the diversity reranker admits a candidate exactly
when its similarity to every earlier admission is at most (not strictly
below) the threshold; identical source and chunkIndex force similarity 1;
each admitted candidate gets the 0.1 bonus exactly when its source is new
among earlier admissions; and a positive topK bounds the number admitted. -/
theorem diversity_rerank_props (cfg : DiversityConfig) (results : List SearchResult)
    (topK : Option Nat) (hsw : cfg.sourceWeighting = true)
    (htop : ∀ k, topK = some k → 1 ≤ k) :
    (DiversityReranker.rerank cfg results topK).Pairwise (fun a b =>
      calculateSimilarity b.toSearchResult a.toSearchResult ≤
        cfg.similarityThreshold) ∧
    (∀ r1 r2 : SearchResult, r1.metadata.source = r2.metadata.source →
      r1.metadata.chunkIndex = r2.metadata.chunkIndex →
      calculateSimilarity r1 r2 = 1) ∧
    (∀ j, j < (DiversityReranker.rerank cfg results topK).length →
      ((DiversityReranker.rerank cfg results topK).getD j
          defaultReranked).rerankedScore =
        ((DiversityReranker.rerank cfg results topK).getD j
            defaultReranked).originalScore +
          (if ((DiversityReranker.rerank cfg results topK).getD j
                defaultReranked).metadata.source ∈
              sourcesOf ((DiversityReranker.rerank cfg results topK).take j)
            then 0 else 1/10)) ∧
    (∀ k, topK = some k →
      (DiversityReranker.rerank cfg results topK).length ≤ k) := by
  refine ⟨?_, ?_, ?_, ?_⟩
  · exact diversityLoop_pairwise cfg topK results [] [] List.Pairwise.nil
  · intro r1 r2 h1 h2
    simp [calculateSimilarity, h1, h2]
  · exact diversityLoop_scores cfg topK hsw results [] []
      (fun s => by simp [sourcesOf]) (fun j hj => by simp at hj)
  · intro k hk
    subst hk
    exact diversityLoop_length_le cfg k (htop k rfl) results [] [] (by simp)

/-- Witness: the amended diversity claim applied to a concrete two-element
input with topK = 1. -/
theorem diversity_rerank_props_witness :
    diversityDefault.sourceWeighting = true ∧ 1 ≤ 1 ∧
    (DiversityReranker.rerank diversityDefault [candA, candB] (some 1)).Pairwise
      (fun a b => calculateSimilarity b.toSearchResult a.toSearchResult ≤
        diversityDefault.similarityThreshold) ∧
    (∀ k, (some 1 : Option Nat) = some k →
      (DiversityReranker.rerank diversityDefault [candA, candB] (some 1)).length ≤ k) :=
  ⟨rfl, le_refl 1,
    (diversity_rerank_props diversityDefault [candA, candB] (some 1) rfl
      (fun k hk => by cases hk; exact le_refl 1)).1,
    (diversity_rerank_props diversityDefault [candA, candB] (some 1) rfl
      (fun k hk => by cases hk; exact le_refl 1)).2.2.2⟩

/-- Counterexample to claim C5 as stated: a candidate whose similarity to
an already-admitted candidate is exactly the threshold 0.7, hence not
strictly below it, is still admitted. -/
theorem diversity_admits_at_threshold :
    calculateSimilarity simRes2 simRes1 = 7/10 ∧
    ¬ (calculateSimilarity simRes2 simRes1 < 7/10) ∧
    (DiversityReranker.rerank diversityDefault [simRes1, simRes2] none).length = 2 := by
  decide

/-- Claim C10: the diversity output preserves the input's relative order
(it is a subsequence of the input), and because the source bonus is applied
without re-sorting, a concrete sorted input yields an output that is not
sorted descending by reranked score. -/
theorem diversity_preserves_input_order :
    (∀ (cfg : DiversityConfig) (results : List SearchResult) (topK : Option Nat),
      ((DiversityReranker.rerank cfg results topK).map
        RerankedResult.original).Sublist results) ∧
    ((divRes2.score ≤ divRes1.score ∧ divRes3.score ≤ divRes2.score) ∧
      ¬ (((DiversityReranker.rerank diversityDefault [divRes1, divRes2, divRes3]
            none).map (fun x => x.rerankedScore)).Pairwise
          (fun a b : ℚ => b ≤ a))) := by
  constructor
  · intro cfg results topK
    simpa using diversityLoop_sublist cfg topK results [] []
  · exact ⟨⟨by decide, by decide⟩, by decide⟩

/-- With lambda = 1 the MMR objective is exactly the relevance score. -/
theorem mmrScore_one (selected : List RerankedResult) (r : SearchResult) :
    mmrScore 1 selected r = r.score := by
  unfold mmrScore
  ring

/-- The argmax scan keeps its starting point when nothing beats it. -/
theorem firstMaxFrom_of_le (best : ℚ) (bi : Nat) :
    ∀ (l : List ℚ) (i : Nat), (∀ s ∈ l, s ≤ best) →
      firstMaxFrom best bi i l = (bi, best)
  | [], _, _ => rfl
  | s :: rest, i, h => by
      rw [firstMaxFrom, if_neg (not_lt.mpr (h s (List.mem_cons_self s rest)))]
      exact firstMaxFrom_of_le best bi rest (i + 1)
        (fun x hx => h x (List.mem_cons_of_mem s hx))

/-- With lambda = 1 over a pool sorted by score descending, the MMR loop
takes the pool in order, assigning each candidate its own score. -/
theorem mmrLoop_one_sorted (k : Nat) :
    ∀ (remaining : List SearchResult) (selected : List RerankedResult),
      List.Pairwise (byScoreGE (fun r => r.score)) remaining →
      mmrLoop 1 k remaining.length selected remaining =
        selected ++ (remaining.take (k - selected.length)).map
          (fun r => toRerankedResult r r.score)
  | [], selected, _ => by simp [mmrLoop]
  | r0 :: rest, selected, hsort => by
      show mmrLoop 1 k (rest.length + 1) selected (r0 :: rest) = _
      rw [mmrLoop]
      by_cases hlt : selected.length < k
      · rw [if_pos hlt]
        have hscores : rest.map (mmrScore 1 selected) = rest.map (fun r => r.score) :=
          List.map_congr_left (fun r _ => mmrScore_one selected r)
        have hmax : firstMaxFrom (mmrScore 1 selected r0) 0 1
            (rest.map (mmrScore 1 selected)) = (0, r0.score) := by
          rw [hscores, mmrScore_one]
          refine firstMaxFrom_of_le r0.score 0 _ 1 ?_
          intro s hs
          obtain ⟨r, hr, rfl⟩ := List.mem_map.mp hs
          exact (List.pairwise_cons.mp hsort).1 r hr
        simp only [hmax]
        have hstep := mmrLoop_one_sorted k rest
          (selected ++ [toRerankedResult r0 r0.score])
          (List.Pairwise.of_cons hsort)
        simp only [List.getD_cons_zero, List.eraseIdx_cons_zero]
        rw [hstep]
        have hk : k - selected.length = (k - (selected.length + 1)) + 1 := by omega
        rw [hk]
        simp [List.append_assoc]
      · rw [if_neg hlt]
        have hk : k - selected.length = 0 := by omega
        rw [hk]
        simp

/-- Claim C6 (amended): on an input already sorted by score descending (as
the upstream ranking guarantees) and with topK omitted or positive, MMR
with lambda = 1 orders candidates exactly as the stable descending sort by
relevance score. -/
theorem mmr_lambda_one_sorts_by_score (results : List SearchResult)
    (topK : Option Nat)
    (hsorted : List.Pairwise (byScoreGE (fun r => r.score)) results)
    (htop : ∀ k, topK = some k → 1 ≤ k) :
    (MMRReranker.rerank 1 results topK).map (fun x => x.id) =
      ((sortByScoreDesc results).take
        (MMRReranker.rerank 1 results topK).length).map (fun r => r.id) := by
  have hsorteq : sortByScoreDesc results = results :=
    List.Sorted.insertionSort_eq hsorted
  rw [hsorteq]
  cases results with
  | nil => simp [MMRReranker.rerank]
  | cons first rest =>
    have hk1 : 1 ≤ topK.getD (first :: rest).length := by
      cases topK with
      | none => simp
      | some kk => exact htop kk rfl
    have hout : MMRReranker.rerank 1 (first :: rest) topK =
        toRerankedResult first first.score ::
          (rest.take (topK.getD (first :: rest).length - 1)).map
            (fun r => toRerankedResult r r.score) := by
      show mmrLoop 1 (topK.getD (first :: rest).length) rest.length
          [toRerankedResult first first.score] rest = _
      rw [mmrLoop_one_sorted _ rest _ (List.Pairwise.of_cons hsorted)]
      simp
    rw [hout]
    simp only [List.map_cons, List.length_cons, List.length_map, List.length_take]
    rw [List.take_succ_cons]
    simp only [List.map_cons, toRerankedResult, List.map_map]
    refine congrArg (fun t => first.id :: t) ?_
    have htk : rest.take (min (topK.getD (rest.length + 1) - 1) rest.length) =
        rest.take (topK.getD (rest.length + 1) - 1) :=
      List.take_eq_take.mpr (by omega)
    rw [htk]
    exact List.map_congr_left (fun r _ => rfl)

/-- Counterexample to claim C6 as stated (for every input list): MMR always
selects the incoming rank-0 candidate first, so on an input that is not
already sorted by score the ordering differs from the descending sort. -/
theorem mmr_lambda_one_differs_on_unsorted_input :
    ¬ ((MMRReranker.rerank 1 mmrUnsorted none).map (fun x => x.id) =
        ((sortByScoreDesc mmrUnsorted).take
          (MMRReranker.rerank 1 mmrUnsorted none).length).map (fun r => r.id)) := by
  decide

/-- Witness: the amended MMR claim applied to a concrete sorted two-element
input with topK omitted. -/
theorem mmr_lambda_one_sorts_by_score_witness :
    List.Pairwise (byScoreGE (fun r => r.score)) mmrSorted ∧
    (MMRReranker.rerank 1 mmrSorted none).map (fun x => x.id) =
      ((sortByScoreDesc mmrSorted).take
        (MMRReranker.rerank 1 mmrSorted none).length).map (fun r => r.id) :=
  ⟨by decide,
    mmr_lambda_one_sorts_by_score mmrSorted none (by decide)
      (fun k hk => Option.noConfusion hk)⟩

/-- Counterexample to claim C4 as stated: the keyword retriever's search on
an unindexed (empty) index returns a normal empty result list instead of
failing with a not-indexed error. -/
theorem keyword_search_unindexed_returns_empty :
    KeywordSearch.search (fun _ => 1) tokLower (fun q => q) [] "query" 5 =
      ([] : List SearchResult) := rfl

/-- Claim C4 (amended): KeywordSearch.search before any indexing returns
the empty list, while keyword-strategy and hybrid-strategy searches through
the HybridSearch facade fail with the not-indexed error whenever the
keyword index has not been built. -/
theorem keyword_unindexed_behavior (cfg : FusionConfig) (idf : String → ℚ)
    (tok : String → List String) (norm : ℚ → ℚ)
    (documents : List DocumentChunk) (vectorSearch : Nat → List SearchResult)
    (query : String) (topK : Nat) (minScore : Option ℚ) (ready : Bool)
    (hready : ready = false) :
    KeywordSearch.search idf tok norm [] query topK = [] ∧
    HybridSearch.search ready cfg idf tok norm documents vectorSearch query
      SearchStrategy.keyword topK minScore = Except.error notIndexedMsg ∧
    HybridSearch.search ready cfg idf tok norm documents vectorSearch query
      SearchStrategy.hybrid topK minScore = Except.error notIndexedMsg := by
  subst hready
  refine ⟨rfl, ?_, ?_⟩ <;>
    simp [HybridSearch.search, keywordOnlySearch, hybridSearchImpl, Except.map]

/-- Witness: the amended not-indexed claim applied to concrete parameters
with the ready flag false. -/
theorem keyword_unindexed_behavior_witness :
    false = false ∧
    (KeywordSearch.search (fun _ => 1) tokLower (fun q => q) [] "q" 5 = [] ∧
    HybridSearch.search false (SearchFusion.mkConfig none none none)
      (fun _ => 1) tokLower (fun q => q) [chunkA] (fun _ => []) "q"
      SearchStrategy.keyword 5 none = Except.error notIndexedMsg ∧
    HybridSearch.search false (SearchFusion.mkConfig none none none)
      (fun _ => 1) tokLower (fun q => q) [chunkA] (fun _ => []) "q"
      SearchStrategy.hybrid 5 none = Except.error notIndexedMsg) :=
  ⟨rfl, keyword_unindexed_behavior (SearchFusion.mkConfig none none none)
    (fun _ => 1) tokLower (fun q => q) [chunkA] (fun _ => []) "q" 5 none
    false rfl⟩

/-- Claim C9: keyword search only returns documents whose raw TF-IDF score
against the query is strictly positive, hence only documents sharing at
least one scoring term with the query; concretely, a two-document index
sharing no terms with the query answers with an empty list although topK
is 2. -/
theorem keyword_search_positive_scores_only (idf : String → ℚ)
    (tok : String → List String) (norm : ℚ → ℚ)
    (documents : List DocumentChunk) (query : String) (topK : Nat) :
    (∀ r ∈ KeywordSearch.search idf tok norm documents query topK,
      ∃ doc, doc ∈ documents ∧ r.id = doc.id ∧
        0 < tfidfScore idf (tok query) (tok (createSearchableText doc)) ∧
        ∃ t ∈ tok query, t ∈ tok (createSearchableText doc)) ∧
    (KeywordSearch.search (fun _ => 1) tokLower (fun q => q)
        [chunkA, chunkB] "zulu" 2 = [] ∧
      2 ≤ ([chunkA, chunkB] : List DocumentChunk).length) := by
  constructor
  · intro r hr
    unfold KeywordSearch.search at hr
    by_cases hempty : documents.length = 0
    · rw [if_pos hempty] at hr
      simp at hr
    · rw [if_neg hempty] at hr
      dsimp only at hr
      obtain ⟨p, hptop, rfl⟩ := List.mem_map.mp hr
      have hp_sorted := List.mem_of_mem_take hptop
      have hp_scores := (List.perm_insertionSort _ _).mem_iff.mp hp_sorted
      obtain ⟨hp_mem, hp_posb⟩ := List.mem_filter.mp hp_scores
      have hp_pos : (0 : ℚ) < p.2 := of_decide_eq_true hp_posb
      obtain ⟨q, hq_enum, hpeq⟩ := List.mem_map.mp hp_mem
      subst hpeq
      have hget : documents.get? q.1 = some q.2 := List.mem_enum_iff_get?.mp hq_enum
      have hmem : q.2 ∈ documents := List.get?_mem hget
      have hgetD : documents.getD q.1 defaultChunk = q.2 := by
        simp [List.getD_eq_getElem?_getD, ← List.get?_eq_getElem?, hget]
      refine ⟨q.2, hmem,
        by simp [List.getD_eq_getElem?_getD, ← List.get?_eq_getElem?, hget],
        hp_pos, ?_⟩
      by_contra hnone
      push_neg at hnone
      have hzero : tfidfScore idf (tok query) (tok (createSearchableText q.2)) = 0 := by
        unfold tfidfScore
        refine List.sum_eq_zero ?_
        intro x hx
        obtain ⟨t, ht, rfl⟩ := List.mem_map.mp hx
        rw [List.count_eq_zero.mpr (hnone t ht)]
        simp
      rw [hzero] at hp_pos
      exact lt_irrefl 0 hp_pos
  · exact ⟨by decide, by decide⟩


/-- Getting a key after a set: the set key answers the new value, any other
key is unchanged. -/
theorem jsGet_jsSet {β : Type} :
    ∀ (m : List (String × β)) (key other : String) (v : β),
      jsGet (jsSet m key v) other = if other = key then some v else jsGet m other
  | [], key, other, v => by
      by_cases h : other = key
      · simp [jsGet, jsSet, h]
      · have hko : ¬ key = other := fun hc => h hc.symm
        simp [jsGet, jsSet, h, hko]
  | p :: m, key, other, v => by
      by_cases hp : p.1 = key
      · rw [jsSet, if_pos hp]
        by_cases h : other = key
        · simp [jsGet, h]
        · have hko : ¬ key = other := fun hc => h hc.symm
          have hpo : ¬ p.1 = other := fun hc => h (hc.symm.trans hp)
          simp [jsGet, h, hko, hpo]
      · rw [jsSet, if_neg hp]
        by_cases hpo : p.1 = other
        · have h : ¬ other = key := fun hc => hp (hpo.trans hc)
          simp [jsGet, hpo, h]
        · rw [jsGet, if_neg (by simpa using hpo), jsGet_jsSet m key other v]
          by_cases h : other = key
          · simp [h]
          · simp [jsGet, h, hpo]

/-- Setting a present key keeps the key list; a fresh key is appended. -/
theorem jsKeys_jsSet {β : Type} :
    ∀ (m : List (String × β)) (key : String) (v : β),
      jsKeys (jsSet m key v) =
        if key ∈ jsKeys m then jsKeys m else jsKeys m ++ [key]
  | [], key, v => by simp [jsKeys, jsSet]
  | p :: m, key, v => by
      by_cases hp : p.1 = key
      · rw [jsSet, if_pos hp]
        simp [jsKeys, hp]
      · rw [jsSet, if_neg hp]
        have htail := jsKeys_jsSet m key v
        by_cases hmem : key ∈ jsKeys m
        · rw [if_pos hmem] at htail
          have hmem2 : key ∈ jsKeys (p :: m) := by
            simp only [jsKeys, List.map_cons, List.mem_cons]
            exact Or.inr hmem
          rw [if_pos hmem2]
          simp only [jsKeys, List.map_cons] at htail ⊢
          rw [htail]
        · rw [if_neg hmem] at htail
          have hmem2 : ¬ key ∈ jsKeys (p :: m) := by
            simp only [jsKeys, List.map_cons, List.mem_cons]
            rintro (hc | hc)
            · exact hp hc.symm
            · exact hmem hc
          rw [if_neg hmem2]
          simp only [jsKeys, List.map_cons] at htail ⊢
          rw [htail]
          simp

/-- Setting preserves distinctness of the keys. -/
theorem jsKeys_nodup_jsSet {β : Type} (m : List (String × β)) (key : String)
    (v : β) (hnd : (jsKeys m).Nodup) : (jsKeys (jsSet m key v)).Nodup := by
  rw [jsKeys_jsSet]
  by_cases hmem : key ∈ jsKeys m
  · rwa [if_pos hmem]
  · rw [if_neg hmem]
    simpa [List.nodup_append] using ⟨hnd, fun hc => hmem hc⟩

/-- Over distinct keys, membership of an entry is the same as the lookup
answering its value. -/
theorem jsGet_eq_some_iff_mem {β : Type} :
    ∀ (m : List (String × β)), (jsKeys m).Nodup →
      ∀ (key : String) (v : β), ((key, v) ∈ m ↔ jsGet m key = some v)
  | [], _, key, v => by simp [jsGet]
  | p :: m, hnd, key, v => by
      have hnd' : (jsKeys m).Nodup :=
        (List.nodup_cons.mp (by simpa [jsKeys] using hnd)).2
      have hhead : p.1 ∉ jsKeys m :=
        (List.nodup_cons.mp (by simpa [jsKeys] using hnd)).1
      by_cases hp : p.1 = key
      · rw [jsGet, if_pos hp]
        constructor
        · intro hmem
          rcases List.mem_cons.mp hmem with heq | hm
          · rw [← heq]
          · exfalso
            have hkm : key ∈ jsKeys m := by
              simpa [jsKeys] using List.mem_map_of_mem Prod.fst hm
            exact hhead (by rwa [hp])
        · intro hv
          have hv' : v = p.2 := (Option.some.inj hv).symm
          have hep : (key, v) = p := by
            cases p with
            | mk a b =>
              simp only at hp hv'
              rw [← hp, hv']
          rw [hep]
          exact List.mem_cons_self p m
      · rw [jsGet, if_neg hp]
        constructor
        · intro hmem
          rcases List.mem_cons.mp hmem with heq | hm
          · exact absurd (congrArg Prod.fst heq.symm) hp
          · exact (jsGet_eq_some_iff_mem m hnd' key v).mp hm
        · intro hv
          exact List.mem_cons.mpr
            (Or.inr ((jsGet_eq_some_iff_mem m hnd' key v).mpr hv))

/-- Setting a key to a value whose stored candidate bears that id keeps
the id-as-key invariant of the score map. -/
theorem jsSet_entry_id {β : Type} (f : β → String) :
    ∀ (m : List (String × β)) (key : String) (v : β),
      (∀ p ∈ m, f p.2 = p.1) → f v = key →
      ∀ p ∈ jsSet m key v, f p.2 = p.1
  | [], key, v, _, hv => by
      intro p hp
      simp only [jsSet, List.mem_singleton] at hp
      rw [hp]
      exact hv
  | q :: m, key, v, hm, hv => by
      intro p hp
      by_cases hq : q.1 = key
      · rw [jsSet, if_pos hq] at hp
        rcases List.mem_cons.mp hp with heq | hpm
        · rw [heq]
          exact hv
        · exact hm p (List.mem_cons_of_mem q hpm)
      · rw [jsSet, if_neg hq] at hp
        rcases List.mem_cons.mp hp with heq | hpm
        · rw [heq]
          exact hm q (List.mem_cons_self q m)
        · exact jsSet_entry_id f m key v
            (fun r hr => hm r (List.mem_cons_of_mem q hr)) hv p hpm

/-- Ids untouched by the vector pass keep their lookup. -/
theorem processVector_get_notmem (vw k : ℚ) :
    ∀ (rest : List SearchResult) (rank : Nat) (m : List (String × ScoreEntry))
      (id : String), id ∉ rest.map (fun r => r.id) →
      jsGet (processVector vw k rest rank m) id = jsGet m id
  | [], _, _, _, _ => rfl
  | res :: rest, rank, m, id, hid => by
      have hne : id ≠ res.id := fun hc => hid (by simp [hc])
      rw [processVector,
        processVector_get_notmem vw k rest (rank + 1) _ id
          (fun hc => hid (by simp [hc])),
        jsGet_jsSet, if_neg hne]

/-- The vector pass maps the id of the candidate at offset j to that
candidate with the partial score of rank (rank + j). -/
theorem processVector_get_mem (vw k : ℚ) :
    ∀ (rest : List SearchResult) (rank : Nat) (m : List (String × ScoreEntry))
      (j : Nat) (hj : j < rest.length) (id : String),
      (rest.map (fun r => r.id)).Nodup → (rest.get ⟨j, hj⟩).id = id →
      jsGet (processVector vw k rest rank m) id =
        some (rest.get ⟨j, hj⟩, vw / (k + ((rank + j : Nat) : ℚ) + 1))
  | res :: rest, rank, m, 0, hj, id, hnd, hid => by
      rw [List.map_cons] at hnd
      have hhead : res.id ∉ rest.map (fun r => r.id) := (List.nodup_cons.mp hnd).1
      have hres : res.id = id := hid
      rw [processVector,
        processVector_get_notmem vw k rest (rank + 1) _ id
          (fun hc => hhead (hres ▸ hc)),
        jsGet_jsSet, if_pos hres.symm]
      show some (res, _) = some ((res :: rest).get ⟨0, hj⟩, _)
      simp
  | res :: rest, rank, m, j + 1, hj, id, hnd, hid => by
      rw [List.map_cons] at hnd
      have hj' : j < rest.length := Nat.succ_lt_succ_iff.mp hj
      have hid' : (rest.get ⟨j, hj'⟩).id = id := hid
      rw [processVector, processVector_get_mem vw k rest (rank + 1) _ j hj' id
        (List.nodup_cons.mp hnd).2 hid']
      have hcast : ((rank + 1 + j : Nat) : ℚ) = ((rank + (j + 1) : Nat) : ℚ) := by
        push_cast
        ring
      rw [hcast]
      rfl

/-- Ids untouched by the keyword pass keep their lookup. -/
theorem processKeyword_get_notmem (kw k : ℚ) :
    ∀ (rest : List SearchResult) (rank : Nat) (m : List (String × ScoreEntry))
      (id : String), id ∉ rest.map (fun r => r.id) →
      jsGet (processKeyword kw k rest rank m) id = jsGet m id
  | [], _, _, _, _ => rfl
  | res :: rest, rank, m, id, hid => by
      have hne : id ≠ res.id := fun hc => hid (by simp [hc])
      rw [processKeyword]
      cases hm : jsGet m res.id with
      | some e =>
          rw [processKeyword_get_notmem kw k rest (rank + 1) _ id
              (fun hc => hid (by simp [hc])),
            jsGet_jsSet, if_neg hne]
      | none =>
          rw [processKeyword_get_notmem kw k rest (rank + 1) _ id
              (fun hc => hid (by simp [hc])),
            jsGet_jsSet, if_neg hne]

/-- The keyword pass adds the rank-based partial score of the candidate at
offset j to an existing entry for its id, or inserts the candidate with
that partial score. -/
theorem processKeyword_get_mem (kw k : ℚ) :
    ∀ (rest : List SearchResult) (rank : Nat) (m : List (String × ScoreEntry))
      (j : Nat) (hj : j < rest.length) (id : String),
      (rest.map (fun r => r.id)).Nodup → (rest.get ⟨j, hj⟩).id = id →
      jsGet (processKeyword kw k rest rank m) id =
        match jsGet m id with
        | some e => some (e.1, e.2 + kw / (k + ((rank + j : Nat) : ℚ) + 1))
        | none => some (rest.get ⟨j, hj⟩, kw / (k + ((rank + j : Nat) : ℚ) + 1))
  | res :: rest, rank, m, 0, hj, id, hnd, hid => by
      rw [List.map_cons] at hnd
      have hhead : res.id ∉ rest.map (fun r => r.id) := (List.nodup_cons.mp hnd).1
      have hres : res.id = id := hid
      rw [processKeyword]
      subst hres
      cases hm : jsGet m res.id with
      | some e =>
          rw [processKeyword_get_notmem kw k rest (rank + 1) _ res.id
              (fun hc => hhead hc),
            jsGet_jsSet, if_pos rfl]
          simp
      | none =>
          rw [processKeyword_get_notmem kw k rest (rank + 1) _ res.id
              (fun hc => hhead hc),
            jsGet_jsSet, if_pos rfl]
          show _ = some ((res :: rest).get ⟨0, hj⟩, _)
          simp
  | res :: rest, rank, m, j + 1, hj, id, hnd, hid => by
      rw [List.map_cons] at hnd
      have hj' : j < rest.length := Nat.succ_lt_succ_iff.mp hj
      have hid' : (rest.get ⟨j, hj'⟩).id = id := hid
      have hne : id ≠ res.id := by
        intro hc
        have hmem : id ∈ rest.map (fun r => r.id) := by
          rw [← hid']
          exact List.mem_map_of_mem (fun r => r.id)
            (List.mem_iff_get.mpr ⟨⟨j, hj'⟩, rfl⟩)
        exact (List.nodup_cons.mp hnd).1 (hc ▸ hmem)
      rw [processKeyword]
      have hcast : ((rank + 1 + j : Nat) : ℚ) = ((rank + (j + 1) : Nat) : ℚ) := by
        push_cast
        ring
      cases hm : jsGet m res.id with
      | some e =>
          rw [processKeyword_get_mem kw k rest (rank + 1) _ j hj' id
              (List.nodup_cons.mp hnd).2 hid',
            jsGet_jsSet, if_neg hne, hcast]
          cases jsGet m id <;> rfl
      | none =>
          rw [processKeyword_get_mem kw k rest (rank + 1) _ j hj' id
              (List.nodup_cons.mp hnd).2 hid',
            jsGet_jsSet, if_neg hne, hcast]
          cases jsGet m id <;> rfl

/-- An absent key answers none. -/
theorem jsGet_eq_none_iff {β : Type} :
    ∀ (m : List (String × β)) (key : String),
      (jsGet m key = none ↔ key ∉ jsKeys m)
  | [], key => by simp [jsGet, jsKeys]
  | p :: m, key => by
      by_cases hp : p.1 = key
      · rw [jsGet, if_pos hp]
        simp [jsKeys, hp]
      · rw [jsGet, if_neg hp]
        rw [jsGet_eq_none_iff m key]
        simp only [jsKeys, List.map_cons, List.mem_cons]
        constructor
        · intro h
          push_neg
          exact ⟨fun hc => hp hc.symm, by simpa [jsKeys] using h⟩
        · intro h
          push_neg at h
          simpa [jsKeys] using h.2

/-- A stored value of the score map bears the key as its candidate id. -/
theorem jsGet_some_entry_id {β : Type} (f : β → String) :
    ∀ (m : List (String × β)) (key : String) (v : β),
      (∀ p ∈ m, f p.2 = p.1) → jsGet m key = some v → f v = key
  | [], _, _, _, hv => by simp [jsGet] at hv
  | p :: m, key, v, hm, hv => by
      by_cases hp : p.1 = key
      · rw [jsGet, if_pos hp] at hv
        obtain rfl := Option.some.inj hv
        exact (hm p (List.mem_cons_self p m)).trans hp
      · rw [jsGet, if_neg hp] at hv
        exact jsGet_some_entry_id f m key v
          (fun q hq => hm q (List.mem_cons_of_mem p hq)) hv

/-- Key list of the vector pass over fresh distinct ids: the ids are
appended in order. -/
theorem processVector_keys (vw k : ℚ) :
    ∀ (rest : List SearchResult) (rank : Nat) (m : List (String × ScoreEntry)),
      (∀ i ∈ rest.map (fun r => r.id), i ∉ jsKeys m) →
      (rest.map (fun r => r.id)).Nodup →
      jsKeys (processVector vw k rest rank m) =
        jsKeys m ++ rest.map (fun r => r.id)
  | [], _, m, _, _ => by simp [processVector]
  | res :: rest, rank, m, hfresh, hnd => by
      rw [List.map_cons] at hnd ⊢
      have hhead : res.id ∉ jsKeys m :=
        hfresh res.id (by simp)
      have hkeys : jsKeys (jsSet m res.id (res, vw / (k + (rank : ℚ) + 1))) =
          jsKeys m ++ [res.id] := by
        rw [jsKeys_jsSet, if_neg hhead]
      rw [processVector, processVector_keys vw k rest (rank + 1) _
          (by
            intro i hi
            rw [hkeys]
            intro hc
            rcases List.mem_append.mp hc with hc1 | hc2
            · exact hfresh i (List.mem_cons_of_mem _ hi) hc1
            · have : i = res.id := by simpa using hc2
              exact (List.nodup_cons.mp hnd).1 (this ▸ hi))
          (List.nodup_cons.mp hnd).2,
        hkeys]
      simp

/-- Key list of the keyword pass: fresh ids are appended in order, ids
already present leave the keys unchanged. -/
theorem processKeyword_keys (kw k : ℚ) :
    ∀ (rest : List SearchResult) (rank : Nat) (m : List (String × ScoreEntry)),
      (rest.map (fun r => r.id)).Nodup →
      jsKeys (processKeyword kw k rest rank m) =
        jsKeys m ++ (rest.map (fun r => r.id)).filter
          (fun i => decide (i ∉ jsKeys m))
  | [], _, m, _ => by simp [processKeyword]
  | res :: rest, rank, m, hnd => by
      rw [List.map_cons] at hnd ⊢
      rw [processKeyword]
      cases hm : jsGet m res.id with
      | some e =>
          have hmem : res.id ∈ jsKeys m := by
            by_contra hc
            rw [← jsGet_eq_none_iff] at hc
            rw [hm] at hc
            exact Option.noConfusion hc
          have hkeys : jsKeys (jsSet m res.id (e.1, e.2 + kw / (k + (rank : ℚ) + 1))) =
              jsKeys m := by
            rw [jsKeys_jsSet, if_pos hmem]
          rw [processKeyword_keys kw k rest (rank + 1) _ (List.nodup_cons.mp hnd).2,
            hkeys, List.filter_cons]
          rw [show (decide (res.id ∉ jsKeys m)) = false by simp [hmem]]
          simp
      | none =>
          have hmem : res.id ∉ jsKeys m := (jsGet_eq_none_iff m res.id).mp hm
          have hkeys : jsKeys (jsSet m res.id (res, kw / (k + (rank : ℚ) + 1))) =
              jsKeys m ++ [res.id] := by
            rw [jsKeys_jsSet, if_neg hmem]
          rw [processKeyword_keys kw k rest (rank + 1) _ (List.nodup_cons.mp hnd).2,
            hkeys, List.filter_cons]
          rw [show (decide (res.id ∉ jsKeys m)) = true by simp [hmem]]
          have hfilter : (rest.map (fun r => r.id)).filter
              (fun i => decide (i ∉ jsKeys m ++ [res.id])) =
              (rest.map (fun r => r.id)).filter (fun i => decide (i ∉ jsKeys m)) := by
            apply List.filter_congr
            intro i hi
            have hine : i ≠ res.id := fun hc =>
              (List.nodup_cons.mp hnd).1 (hc ▸ hi)
            simp [List.mem_append, hine]
          rw [hfilter]
          simp

/-- Every entry of the vector pass bears its key as candidate id. -/
theorem processVector_entry_id (vw k : ℚ) :
    ∀ (rest : List SearchResult) (rank : Nat) (m : List (String × ScoreEntry)),
      (∀ p ∈ m, p.2.1.id = p.1) →
      ∀ p ∈ processVector vw k rest rank m, p.2.1.id = p.1
  | [], _, _, hm => hm
  | res :: rest, rank, m, hm => by
      rw [processVector]
      exact processVector_entry_id vw k rest (rank + 1) _
        (jsSet_entry_id (fun e => e.1.id) m res.id _ hm rfl)

/-- Every entry of the keyword pass bears its key as candidate id. -/
theorem processKeyword_entry_id (kw k : ℚ) :
    ∀ (rest : List SearchResult) (rank : Nat) (m : List (String × ScoreEntry)),
      (∀ p ∈ m, p.2.1.id = p.1) →
      ∀ p ∈ processKeyword kw k rest rank m, p.2.1.id = p.1
  | [], _, _, hm => hm
  | res :: rest, rank, m, hm => by
      rw [processKeyword]
      cases hg : jsGet m res.id with
      | some e =>
          have he : e.1.id = res.id :=
            jsGet_some_entry_id (fun q => q.1.id) m res.id e hm hg
          exact processKeyword_entry_id kw k rest (rank + 1) _
            (jsSet_entry_id (fun q => q.1.id) m res.id
              (e.1, e.2 + kw / (k + (rank : ℚ) + 1)) hm he)
      | none =>
          exact processKeyword_entry_id kw k rest (rank + 1) _
            (jsSet_entry_id (fun q => q.1.id) m res.id _ hm rfl)

/-- findById answers none exactly for ids outside the list. -/
theorem findById_eq_none (l : List SearchResult) (id : String) :
    id ∉ resultIds l ↔ findById l id = none := by
  rw [findById, List.find?_eq_none]
  simp only [resultIds, List.mem_map, decide_eq_true_eq]
  constructor
  · intro h r hr hc
    exact h ⟨r, hr, hc⟩
  · rintro h ⟨r, hr, hc⟩
    exact h r hr hc

/-- Over distinct ids, findById of the id of the candidate at offset j
answers that candidate, and j is the id's index. -/
theorem findById_get :
    ∀ (l : List SearchResult) (id : String) (j : Nat) (hj : j < l.length),
      (resultIds l).Nodup → (l.get ⟨j, hj⟩).id = id →
      findById l id = some (l.get ⟨j, hj⟩) ∧ (resultIds l).indexOf id = j
  | r :: l, id, 0, hj, _, hid => by
      have hr : r.id = id := hid
      subst hr
      constructor
      · rw [findById, List.find?, show (decide (r.id = r.id)) = true by simp]
        rfl
      · simp [resultIds]
  | r :: l, id, j + 1, hj, hnd, hid => by
      have hj' : j < l.length := Nat.succ_lt_succ_iff.mp hj
      have hid' : (l.get ⟨j, hj'⟩).id = id := hid
      have hndtail : (resultIds l).Nodup :=
        (List.nodup_cons.mp (by simpa [resultIds] using hnd)).2
      have hne : r.id ≠ id := by
        intro hc
        have hmem : id ∈ resultIds l := by
          rw [← hid']
          exact List.mem_map_of_mem (fun r => r.id)
            (List.mem_iff_get.mpr ⟨⟨j, hj'⟩, rfl⟩)
        exact (List.nodup_cons.mp (by simpa [resultIds] using hnd)).1 (hc ▸ hmem)
      obtain ⟨hfind, hidx⟩ := findById_get l id j hj' hndtail hid'
      constructor
      · rw [findById, List.find?, show (decide (r.id = id)) = false by simp [hne]]
        exact hfind
      · simp only [resultIds, List.map_cons]
        rw [List.indexOf_cons_ne _ (by simpa using hne)]
        simp only [resultIds] at hidx
        omega

/-- The score map of fuseResults answers every id with exactly the entry
the specification predicts: the canonical stored candidate and the summed
rank-based partial scores. -/
theorem fuseMap_get (cfg : FusionConfig) (vec kw : List SearchResult)
    (hv : (resultIds vec).Nodup) (hk : (resultIds kw).Nodup) (id : String) :
    jsGet (fuseMap cfg vec kw) id = fusedEntry cfg vec kw id := by
  unfold fuseMap
  by_cases hkw : id ∈ resultIds kw
  · obtain ⟨r, hrmem, hrid⟩ := List.mem_map.mp (by simpa [resultIds] using hkw)
    obtain ⟨⟨jk, hjk⟩, rfl⟩ := List.mem_iff_get.mp hrmem
    obtain ⟨hkfind, hkidx⟩ := findById_get kw id jk hjk hk hrid
    rw [processKeyword_get_mem cfg.keywordWeight cfg.k kw 0 _ jk hjk id hk hrid]
    by_cases hvec : id ∈ resultIds vec
    · obtain ⟨s, hsmem, hsid⟩ := List.mem_map.mp (by simpa [resultIds] using hvec)
      obtain ⟨⟨jv, hjv⟩, rfl⟩ := List.mem_iff_get.mp hsmem
      obtain ⟨hvfind, hvidx⟩ := findById_get vec id jv hjv hv hsid
      rw [processVector_get_mem cfg.vectorWeight cfg.k vec 0 [] jv hjv id hv hsid]
      show some (vec.get ⟨jv, hjv⟩, _) = _
      unfold fusedEntry
      rw [hvfind]
      unfold fusedScore
      rw [if_pos hvec, if_pos hkw, hvidx, hkidx]
      norm_num
    · rw [processVector_get_notmem cfg.vectorWeight cfg.k vec 0 [] id
        (by simpa [resultIds] using hvec)]
      show some (kw.get ⟨jk, hjk⟩, _) = _
      unfold fusedEntry
      rw [(findById_eq_none vec id).mp hvec, hkfind]
      unfold fusedScore
      rw [if_neg hvec, if_pos hkw, hkidx]
      norm_num
  · rw [processKeyword_get_notmem cfg.keywordWeight cfg.k kw 0 _ id
      (by simpa [resultIds] using hkw)]
    by_cases hvec : id ∈ resultIds vec
    · obtain ⟨s, hsmem, hsid⟩ := List.mem_map.mp (by simpa [resultIds] using hvec)
      obtain ⟨⟨jv, hjv⟩, rfl⟩ := List.mem_iff_get.mp hsmem
      obtain ⟨hvfind, hvidx⟩ := findById_get vec id jv hjv hv hsid
      rw [processVector_get_mem cfg.vectorWeight cfg.k vec 0 [] jv hjv id hv hsid]
      unfold fusedEntry
      rw [hvfind]
      unfold fusedScore
      rw [if_pos hvec, if_neg hkw, hvidx]
      norm_num
    · rw [processVector_get_notmem cfg.vectorWeight cfg.k vec 0 [] id
        (by simpa [resultIds] using hvec)]
      unfold fusedEntry
      rw [(findById_eq_none vec id).mp hvec, (findById_eq_none kw id).mp hkw]
      rfl

/-- Keys of the fused score map: the vector ids, then the keyword-only ids,
in first-retrieval order. -/
theorem fuseMap_keys (cfg : FusionConfig) (vec kw : List SearchResult)
    (hv : (resultIds vec).Nodup) (hk : (resultIds kw).Nodup) :
    jsKeys (fuseMap cfg vec kw) =
      resultIds vec ++ (resultIds kw).filter
        (fun i => decide (i ∉ resultIds vec)) := by
  have hpv : jsKeys (processVector cfg.vectorWeight cfg.k vec 0 []) =
      resultIds vec := by
    rw [processVector_keys cfg.vectorWeight cfg.k vec 0 [] (by simp [jsKeys]) hv]
    simp [jsKeys, resultIds]
  unfold fuseMap
  rw [processKeyword_keys cfg.keywordWeight cfg.k kw 0 _ hk]
  simp only [hpv]
  rfl

/-- The fused score map has distinct keys. -/
theorem fuseMap_keys_nodup (cfg : FusionConfig) (vec kw : List SearchResult)
    (hv : (resultIds vec).Nodup) (hk : (resultIds kw).Nodup) :
    (jsKeys (fuseMap cfg vec kw)).Nodup := by
  rw [fuseMap_keys cfg vec kw hv hk]
  rw [List.nodup_append]
  refine ⟨hv, hk.filter _, ?_⟩
  intro i hi hif
  have := List.of_mem_filter hif
  simp only [decide_eq_true_eq] at this
  exact this hi

/-- Every entry of the fused score map bears its key as candidate id. -/
theorem fuseMap_entry_id (cfg : FusionConfig) (vec kw : List SearchResult) :
    ∀ p ∈ fuseMap cfg vec kw, p.2.1.id = p.1 := by
  unfold fuseMap
  exact processKeyword_entry_id cfg.keywordWeight cfg.k kw 0 _
    (processVector_entry_id cfg.vectorWeight cfg.k vec 0 [] (by simp))

/-- What a defined fused entry contains: the fused score of the id, the id
itself on the stored candidate, and the stored candidate is the vector
occurrence when there is one, the keyword occurrence otherwise. -/
theorem fusedEntry_some (cfg : FusionConfig) (vec kw : List SearchResult)
    (id : String) (e : ScoreEntry)
    (h : fusedEntry cfg vec kw id = some e) :
    e.2 = fusedScore cfg vec kw id ∧ e.1.id = id ∧
      ((id ∈ resultIds vec ∧ e.1 ∈ vec) ∨ (id ∉ resultIds vec ∧ e.1 ∈ kw)) := by
  unfold fusedEntry at h
  cases hfv : findById vec id with
  | some v =>
      rw [hfv] at h
      obtain rfl := (Option.some.inj h).symm
      have hvid : v.id = id := by
        have := List.find?_some hfv
        simpa using this
      have hvmem : v ∈ vec := List.mem_of_find?_eq_some hfv
      exact ⟨rfl, hvid, Or.inl ⟨by
        rw [← hvid]
        exact List.mem_map_of_mem (fun r => r.id) hvmem, hvmem⟩⟩
  | none =>
      rw [hfv] at h
      cases hfk : findById kw id with
      | some w =>
          rw [hfk] at h
          obtain rfl := (Option.some.inj h).symm
          have hwid : w.id = id := by
            have := List.find?_some hfk
            simpa using this
          have hwmem : w ∈ kw := List.mem_of_find?_eq_some hfk
          have hnv : id ∉ resultIds vec := (findById_eq_none vec id).mpr hfv
          exact ⟨rfl, hwid, Or.inr ⟨hnv, hwmem⟩⟩
      | none =>
          rw [hfk] at h
          exact Option.noConfusion h

/-- Ids retrieved by either list have a fused entry. -/
theorem fusedEntry_isSome_of_mem (cfg : FusionConfig)
    (vec kw : List SearchResult) (id : String)
    (h : id ∈ resultIds vec ∨ id ∈ resultIds kw) :
    ∃ e, fusedEntry cfg vec kw id = some e := by
  unfold fusedEntry
  cases hfv : findById vec id with
  | some v => exact ⟨_, rfl⟩
  | none =>
      cases hfk : findById kw id with
      | some w => exact ⟨_, rfl⟩
      | none =>
          exfalso
          rcases h with hm | hm
          · exact (findById_eq_none vec id).mpr hfv hm
          · exact (findById_eq_none kw id).mpr hfk hm

/-- Every fused result is the rendering of a defined fused entry for its
own id. -/
theorem fuseResults_mem_entry (cfg : FusionConfig) (vec kw : List SearchResult)
    (topK : Nat) (hv : (resultIds vec).Nodup) (hk : (resultIds kw).Nodup) :
    ∀ r ∈ SearchFusion.fuseResults cfg vec kw topK,
      ∃ e : ScoreEntry, fusedEntry cfg vec kw e.1.id = some e ∧
        r = { e.1 with score := e.2 } := by
  intro r hr
  unfold SearchFusion.fuseResults at hr
  obtain ⟨e, hetake, rfl⟩ := List.mem_map.mp hr
  have hesorted := List.mem_of_mem_take hetake
  have hevalues : e ∈ (fuseMap cfg vec kw).map (fun p => p.2) :=
    (List.perm_insertionSort _ _).mem_iff.mp hesorted
  obtain ⟨p, hpmem, rfl⟩ := List.mem_map.mp hevalues
  have hwf : p.2.1.id = p.1 := fuseMap_entry_id cfg vec kw p hpmem
  have hget : jsGet (fuseMap cfg vec kw) p.1 = some p.2 :=
    (jsGet_eq_some_iff_mem _ (fuseMap_keys_nodup cfg vec kw hv hk) p.1 p.2).mp hpmem
  refine ⟨p.2, ?_, rfl⟩
  rw [hwf, ← fuseMap_get cfg vec kw hv hk p.1]
  exact hget

/-- Claim C3: every fused result carries the summed rank-based partial
scores of its id (weight over k plus rank plus one per list containing the
id, summed when it appears in both, single otherwise), the output is sorted
descending by fused score, has min topK distinct-id length, and omitted ids
score no higher than any returned result. -/
theorem fuseResults_rrf_characterization (cfg : FusionConfig)
    (vec kw : List SearchResult) (topK : Nat)
    (hv : (resultIds vec).Nodup) (hk : (resultIds kw).Nodup) :
    (∀ r ∈ SearchFusion.fuseResults cfg vec kw topK,
      r.score = fusedScore cfg vec kw r.id) ∧
    (SearchFusion.fuseResults cfg vec kw topK).Pairwise
      (fun a b => b.score ≤ a.score) ∧
    (SearchFusion.fuseResults cfg vec kw topK).length =
      min topK (resultIds vec ++ (resultIds kw).filter
        (fun i => decide (i ∉ resultIds vec))).length ∧
    (∀ id, (id ∈ resultIds vec ∨ id ∈ resultIds kw) →
      id ∉ resultIds (SearchFusion.fuseResults cfg vec kw topK) →
      ∀ r ∈ SearchFusion.fuseResults cfg vec kw topK,
        fusedScore cfg vec kw id ≤ r.score) := by
  refine ⟨?_, ?_, ?_, ?_⟩
  · intro r hr
    obtain ⟨e, hentry, rfl⟩ := fuseResults_mem_entry cfg vec kw topK hv hk r hr
    obtain ⟨hs, -, -⟩ := fusedEntry_some cfg vec kw e.1.id e hentry
    exact hs
  · unfold SearchFusion.fuseResults
    have hpw := List.sorted_insertionSort (byScoreGE (fun e : ScoreEntry => e.2))
      ((fuseMap cfg vec kw).map (fun p => p.2))
    have htake := List.Pairwise.sublist (List.take_sublist topK _) hpw
    exact List.Pairwise.map _ (fun a b hab => hab) htake
  · unfold SearchFusion.fuseResults
    rw [List.length_map, List.length_take,
      (List.perm_insertionSort (byScoreGE (fun e : ScoreEntry => e.2)) _).length_eq,
      List.length_map]
    have : (fuseMap cfg vec kw).length = (jsKeys (fuseMap cfg vec kw)).length := by
      simp [jsKeys]
    rw [this, fuseMap_keys cfg vec kw hv hk]
  · intro id hid hnot r hr
    obtain ⟨e, hentry⟩ := fusedEntry_isSome_of_mem cfg vec kw id hid
    obtain ⟨hescore, heid, -⟩ := fusedEntry_some cfg vec kw id e hentry
    have hget : jsGet (fuseMap cfg vec kw) id = some e := by
      rw [fuseMap_get cfg vec kw hv hk id]
      exact hentry
    have hpmem : (id, e) ∈ fuseMap cfg vec kw :=
      (jsGet_eq_some_iff_mem _ (fuseMap_keys_nodup cfg vec kw hv hk) id e).mpr hget
    have hevalues : e ∈ (fuseMap cfg vec kw).map (fun p => p.2) :=
      List.mem_map_of_mem (fun p => p.2) hpmem
    have hesorted : e ∈ (fuseMap cfg vec kw |>.map (fun p => p.2)).insertionSort
        (byScoreGE (fun e : ScoreEntry => e.2)) :=
      (List.perm_insertionSort _ _).mem_iff.mpr hevalues
    have hnottake : e ∉ ((fuseMap cfg vec kw |>.map (fun p => p.2)).insertionSort
        (byScoreGE (fun e : ScoreEntry => e.2))).take topK := by
      intro hc
      apply hnot
      have hout : ({ e.1 with score := e.2 } : SearchResult) ∈
          SearchFusion.fuseResults cfg vec kw topK := by
        unfold SearchFusion.fuseResults
        exact List.mem_map_of_mem _ hc
      have := List.mem_map_of_mem (fun r : SearchResult => r.id) hout
      simpa [resultIds, heid] using this
    have hedrop : e ∈ ((fuseMap cfg vec kw |>.map (fun p => p.2)).insertionSort
        (byScoreGE (fun e : ScoreEntry => e.2))).drop topK := by
      have h2 := hesorted
      rw [← List.take_append_drop topK ((fuseMap cfg vec kw |>.map
        (fun p => p.2)).insertionSort (byScoreGE (fun e : ScoreEntry => e.2)))] at h2
      rcases List.mem_append.mp h2 with h3 | h3
      · exact absurd h3 hnottake
      · exact h3
    have hpw := List.sorted_insertionSort (byScoreGE (fun e : ScoreEntry => e.2))
      ((fuseMap cfg vec kw).map (fun p => p.2))
    rw [← List.take_append_drop topK ((fuseMap cfg vec kw |>.map
      (fun p => p.2)).insertionSort (byScoreGE (fun e : ScoreEntry => e.2)))] at hpw
    have hrel := (List.pairwise_append.mp hpw).2.2
    unfold SearchFusion.fuseResults at hr
    obtain ⟨x, hxtake, rfl⟩ := List.mem_map.mp hr
    have hxe : byScoreGE (fun e : ScoreEntry => e.2) x e := hrel x hxtake e hedrop
    calc fusedScore cfg vec kw id = e.2 := hescore.symm
      _ ≤ x.2 := hxe

/-- Witness: the RRF characterization applied to the concrete scenario-A
inputs (vector ids a, b, c and keyword ids b, d with weights 0.6/0.4). -/
theorem fuseResults_rrf_characterization_witness :
    ((resultIds fuseVecW).Nodup ∧ (resultIds fuseKwW).Nodup) ∧
    (∀ r ∈ SearchFusion.fuseResults cfgW fuseVecW fuseKwW 3,
      r.score = fusedScore cfgW fuseVecW fuseKwW r.id) ∧
    (SearchFusion.fuseResults cfgW fuseVecW fuseKwW 3).Pairwise
      (fun a b => b.score ≤ a.score) ∧
    (SearchFusion.fuseResults cfgW fuseVecW fuseKwW 3).length =
      min 3 (resultIds fuseVecW ++ (resultIds fuseKwW).filter
        (fun i => decide (i ∉ resultIds fuseVecW))).length :=
  ⟨⟨by decide, by decide⟩,
    (fuseResults_rrf_characterization cfgW fuseVecW fuseKwW 3
      (by decide) (by decide)).1,
    (fuseResults_rrf_characterization cfgW fuseVecW fuseKwW 3
      (by decide) (by decide)).2.1,
    (fuseResults_rrf_characterization cfgW fuseVecW fuseKwW 3
      (by decide) (by decide)).2.2.1⟩

/-- Claim C8: every returned fused candidate is, except for its score, the
unchanged vector-list occurrence of its id when the id was vector-retrieved,
and otherwise the unchanged keyword-list occurrence. -/
theorem fuseResults_frame_preservation (cfg : FusionConfig)
    (vec kw : List SearchResult) (topK : Nat)
    (hv : (resultIds vec).Nodup) (hk : (resultIds kw).Nodup) :
    ∀ r ∈ SearchFusion.fuseResults cfg vec kw topK,
      ∃ src, ((r.id ∈ resultIds vec ∧ src ∈ vec) ∨
          (r.id ∉ resultIds vec ∧ src ∈ kw)) ∧
        src.id = r.id ∧ r.content = src.content ∧ r.metadata = src.metadata := by
  intro r hr
  obtain ⟨e, hentry, rfl⟩ := fuseResults_mem_entry cfg vec kw topK hv hk r hr
  obtain ⟨-, -, hsrc⟩ := fusedEntry_some cfg vec kw e.1.id e hentry
  exact ⟨e.1, hsrc, rfl, rfl, rfl⟩

/-- Witness: the frame property applied to the concrete scenario-A inputs,
on the first element of the fused output. -/
theorem fuseResults_frame_preservation_witness :
    ((resultIds fuseVecW).Nodup ∧ (resultIds fuseKwW).Nodup) ∧
    (∀ r ∈ SearchFusion.fuseResults cfgW fuseVecW fuseKwW 3,
      ∃ src, ((r.id ∈ resultIds fuseVecW ∧ src ∈ fuseVecW) ∨
          (r.id ∉ resultIds fuseVecW ∧ src ∈ fuseKwW)) ∧
        src.id = r.id ∧ r.content = src.content ∧ r.metadata = src.metadata) :=
  ⟨⟨by decide, by decide⟩,
    fuseResults_frame_preservation cfgW fuseVecW fuseKwW 3 (by decide) (by decide)⟩
